import Mathlib

/-!
# Verification of the midna dependency-usage auditor core

A shallow embedding, in Lean 4, of the evidence-collection and classification
engine of the midna CLI (TypeScript sources: `src/confidence.ts`, `src/parser.ts`,
`src/scanner.ts`, `src/cache.ts`, `src/package.ts`, `src/analyzer.ts`).

Modelling conventions:
* JavaScript numbers used for confidence scores and thresholds are embedded as
  exact rationals (`ℚ`); file modification times as `Int` (milliseconds).
* JavaScript strings are `String`; the line- and character-level operations the
  source performs (`split`, `trim`, `startsWith`, regular-expression tests) are
  re-implemented over `List Char` by structural recursion so that every
  definition evaluates inside the kernel.
* Asynchronous file-system access is modelled by a `FileEnv`: a deterministic
  snapshot giving each path an optional content (`none` = the read throws) and
  an optional mtime (`none` = `stat` throws).  The SWC parser (`parseSync`) is
  modelled by an oracle in the same environment: `none` means the parser threw,
  `some imports` is the extracted import list; `parseFile` in `src/parser.ts`
  catches the throw internally and returns the empty list.
* Mutable maps threaded through the analyzer (`evidenceMap`, `sideMap`, the
  file cache) become total functions updated by explicit state passing.
-/

set_option linter.unusedVariables false

namespace Midna

/-- Classification status of a dependency (`src/types.ts`, `DependencyStatus`). -/
inductive DependencyStatus where
  | used
  | unused
  | uncertain
deriving DecidableEq, Repr

/-- Which side of the application uses the dependency (`src/types.ts`, `UsageSide`). -/
inductive UsageSide where
  | client
  | server
  | both
  | unknown
deriving DecidableEq, Repr

/-- Single piece of evidence for dependency usage (`src/types.ts`, `EvidenceEntry`).
The evidence type is kept as a string, exactly as in the JavaScript runtime, so
that the `EVIDENCE_SCORES[e.type] || 0.5` default for unrecognized types is
representable. -/
structure EvidenceEntry where
  file : String
  line : Option Nat
  type : String
  snippet : Option String
deriving DecidableEq, Repr

/-- Cache entry for a file (`src/cache.ts`, `CacheEntry`). -/
structure CacheEntry where
  hash : String
  mtime : Int
  imports : List String
  isClient : Bool
deriving DecidableEq, Repr

/-- Parsed import information (`src/types.ts`, `ParsedImport`). -/
structure ParsedImport where
  packageName : String
  type : String
  line : Nat
  isTypeOnly : Bool := false
deriving DecidableEq, Repr

/-- Result for a single package (`src/types.ts`, `PackageResult`); the `section`
field is named `sectionName` because `section` is a Lean keyword. -/
structure PackageResult where
  name : String
  sectionName : String
  status : DependencyStatus
  confidence : ℚ
  side : UsageSide
  evidence : List EvidenceEntry
  notes : List String
deriving DecidableEq, Repr

/-! ## Character-level string operations

The TypeScript sources use `content.split('\n')`, `str.trim()`,
`trimmed.replace(/;$/, '')` and `str.startsWith(...)`.  These are embedded over
`List Char` by structural recursion. -/

/-- JavaScript `\s` / `String.prototype.trim` whitespace, restricted to the ASCII
range (the sources only ever face ASCII whitespace). -/
def isJsWs (c : Char) : Bool :=
  c == ' ' || c == '\t' || c == '\n' || c == '\r' || c == '\x0b' || c == '\x0c'

/-- JavaScript `s.split(sep)` for a single-character separator: splits into the
(always nonempty) list of chunks between occurrences of `sep`. -/
def splitOnChar (sep : Char) : List Char → List (List Char)
  | [] => [[]]
  | c :: cs =>
    let r := splitOnChar sep cs
    if c = sep then [] :: r
    else (c :: r.headD []) :: r.tail

/-- JavaScript `s.trim()`: strip leading and trailing whitespace. -/
def trimChars (l : List Char) : List Char :=
  ((l.dropWhile isJsWs).reverse.dropWhile isJsWs).reverse

/-- The apostrophe character, ASCII 39. -/
def squoteC : Char := Char.ofNat 39

/-- The double-quoted directive literal: `"use client"` with the quotes. -/
def dqDirective : List Char := '"' :: "use client".data ++ ['"']

/-- The single-quoted directive literal: the directive string wrapped in
apostrophes. -/
def sqDirective : List Char := squoteC :: "use client".data ++ [squoteC]

/-! ## `src/confidence.ts` -/

/-- The `EVIDENCE_SCORES` record from `src/confidence.ts` as a partial lookup:
`none` models a key absent from the record. -/
def evidenceScoreTable (t : String) : Option ℚ :=
  if t = "static_import" then some 1
  else if t = "type_import" then some (9/10)
  else if t = "export_from" then some 1
  else if t = "require" then some 1
  else if t = "dynamic_import" then some (8/10)
  else if t = "css_import" then some (9/10)
  else if t = "config_reference" then some (4/10)
  else if t = "string_reference" then some (3/10)
  else if t = "plugin_reference" then some (5/10)
  else none

/-- `EVIDENCE_SCORES[e.type] || 0.5`: every score in the table is nonzero
(hence truthy), so the `||` fallback fires exactly on absent keys. -/
def evidenceScore (t : String) : ℚ :=
  (evidenceScoreTable t).getD (1/2)

/-- `Math.max(...)` over a list of rationals; only applied to nonempty lists
in `calculateConfidence` (the `[]` value is never used). -/
def maxList : List ℚ → ℚ
  | [] => 0
  | x :: xs => xs.foldl max x

/-- `calculateConfidence` from `src/confidence.ts`. -/
def calculateConfidence (evidence : List EvidenceEntry) : ℚ :=
  if evidence.length = 0 then 0
  else
    let maxScore := maxList (evidence.map (fun e => evidenceScore e.type))
    let evidenceBoost := min (((evidence.length : ℚ) - 1) * (5/100)) (15/100)
    min (maxScore + evidenceBoost) 1

/-- `classifyDependency` from `src/confidence.ts`. -/
def classifyDependency (confidence minUnused minUsed : ℚ) : DependencyStatus :=
  if minUsed ≤ confidence then .used
  else if confidence < minUnused then .unused
  else .uncertain

/-- `determineUsageSide` from `src/confidence.ts`; the per-package side map is
embedded as a pair `(hasClient, hasServer)` with `false` defaults. -/
def determineUsageSide (results : Bool × Bool) : UsageSide :=
  let hasClient := results.1
  let hasServer := results.2
  if hasClient && hasServer then .both
  else if hasClient then .client
  else if hasServer then .server
  else .unknown

/-- `generateNotes` from `src/confidence.ts`. -/
def generateNotes (status : DependencyStatus) (evidence : List EvidenceEntry)
    (sec : String) : List String :=
  let uncertainNotes :=
    if status = DependencyStatus.uncertain then
      (if 0 < (evidence.filter (fun e => decide (e.type = "config_reference"))).length
       then ["Referenced in config files but not verified as imported"] else [])
      ++ (if 0 < (evidence.filter (fun e => decide (e.type = "string_reference"))).length
       then ["Only found as string literal references"] else [])
      ++ (if 0 < (evidence.filter (fun e => decide (e.type = "plugin_reference"))).length
       then ["Possibly used as plugin - verify manually"] else [])
      ++ (if evidence.length = 0 then ["No usage evidence found"] else [])
    else []
  uncertainNotes
    ++ (if sec = "peerDependencies"
        then ["Peer dependency - do not remove without checking dependents"] else [])

/-! ## `src/parser.ts`: directive detection, normalization, snippets -/

/-- The loop body of `detectUseClient` (`src/parser.ts`): for each line, trim,
strip one optional trailing semicolon, return `true` on an exact match with
either quoted directive form; otherwise break at the first nonempty line that
is not a `//` line comment. -/
def detectLoop : List (List Char) → Bool
  | [] => false
  | line :: rest =>
    let trimmed := trimChars line
    let withoutSemi := if trimmed.getLast? = some ';' then trimmed.dropLast else trimmed
    if withoutSemi = dqDirective ∨ withoutSemi = sqDirective then true
    else if trimmed ≠ [] ∧ ¬ (['/', '/'].isPrefixOf trimmed) then false
    else detectLoop rest

/-- `detectUseClient` from `src/parser.ts`: scan the first 20 lines. -/
def detectUseClient (content : String) : Bool :=
  detectLoop ((splitOnChar '\n' content.data).take 20)

/-- `hasUseClient` from `src/scanner.ts` (the CLI-facing variant): check whether
any of the first 10 lines trims to exactly one of the two quoted directive
forms.  Note: no semicolon stripping and no stop at the first substantive line. -/
def hasUseClient (content : String) : Bool :=
  ((splitOnChar '\n' content.data).take 10).any
    (fun line => decide (trimChars line = dqDirective) || decide (trimChars line = sqDirective))

/-- `normalizePackageName` (identical in `src/parser.ts` and `src/scanner.ts`),
over the character list: scoped specifiers keep their first two `/`-separated
segments, everything else keeps the first segment. -/
def normalizeL (l : List Char) : List Char :=
  let parts := splitOnChar '/' l
  if l.head? = some '@' ∧ 2 ≤ parts.length then
    parts.headD [] ++ '/' :: parts.tail.headD []
  else parts.headD []

/-- `normalizePackageName` on `String`. -/
def normalizePackageName (importPath : String) : String :=
  String.mk (normalizeL importPath.data)

/-- `extractSnippet` from `src/analyzer.ts`: the 1-indexed line, trimmed and
truncated to 100 characters; out-of-range (including the JavaScript `line = 0`,
whose index `-1` fails the bounds check) yields the empty string. -/
def extractSnippet (content : List Char) (line : Nat) : List Char :=
  let lines := splitOnChar '\n' content
  if line = 0 then []
  else (trimChars (lines.getD (line - 1) [])).take 100

/-! ## `src/scanner.ts`: Stage A prefilter

`fastScan` builds, per declared name, five regular expressions over the escaped
package name and tests them against the whole file.  The five regex shapes are
embedded as sequences of `RItem`s, and regex search is implemented as a
fuel-indexed backtracking matcher (`matchSeq`); the fuel `p.length + cs.length + 1`
always suffices because every step consumes at least one unit of
pattern-plus-input. -/

/-- One item of a `fastScan` regular expression: a literal character, the
character class of the two quote characters, `\s+`, `\s*`, or the lazy `.*?`
(any characters except line terminators). -/
inductive RItem where
  | litc (c : Char)
  | quote
  | wsPlus
  | wsStar
  | anyLazy
deriving DecidableEq, Repr

/-- Does the pattern sequence match a prefix of the input?  `fuel` bounds the
recursion; with fuel above `ps.length + cs.length` the answer is exact. -/
def matchSeq : Nat → List RItem → List Char → Bool
  | _, [], _ => true
  | 0, _ :: _, _ => false
  | fuel + 1, RItem.litc c :: ps, cs =>
    match cs with
    | [] => false
    | c' :: cs' => c == c' && matchSeq fuel ps cs'
  | fuel + 1, RItem.quote :: ps, cs =>
    match cs with
    | [] => false
    | c' :: cs' => (c' == '"' || c' == squoteC) && matchSeq fuel ps cs'
  | fuel + 1, RItem.wsPlus :: ps, cs =>
    match cs with
    | [] => false
    | c' :: cs' => isJsWs c' && (matchSeq fuel ps cs' || matchSeq fuel (RItem.wsPlus :: ps) cs')
  | fuel + 1, RItem.wsStar :: ps, cs =>
    matchSeq fuel ps cs ||
      (match cs with
       | [] => false
       | c' :: cs' => isJsWs c' && matchSeq fuel (RItem.wsStar :: ps) cs')
  | fuel + 1, RItem.anyLazy :: ps, cs =>
    matchSeq fuel ps cs ||
      (match cs with
       | [] => false
       | c' :: cs' => !(c' == '\n' || c' == '\r') && matchSeq fuel (RItem.anyLazy :: ps) cs')

/-- Match the pattern at the start of the input, with sufficient fuel. -/
def matchTop (p : List RItem) (cs : List Char) : Bool :=
  matchSeq (p.length + cs.length + 1) p cs

/-- `regex.test(content)`: try the pattern at every start position. -/
def searchFrom (p : List RItem) : List Char → Bool
  | [] => matchTop p []
  | c :: cs => matchTop p (c :: cs) || searchFrom p cs

/-- The regex metacharacters escaped by `escapeRegex` in `src/scanner.ts`:
`. * + ? ^ $ { } ( ) | [ ] \` (the braces written via their character codes). -/
def metaChars : List Char :=
  ['.', '*', '+', '?', '^', '$', Char.ofNat 123, Char.ofNat 125,
   '(', ')', '|', '[', ']', '\\']

/-- `escapeRegex` from `src/scanner.ts`, over the character list:
`str.replace(/[.*+?^${}()|[\]\\]/g, '\\$&')`. -/
def escapeRegexL : List Char → List Char
  | [] => []
  | c :: cs => (if c ∈ metaChars then ['\\', c] else [c]) ++ escapeRegexL cs

/-- `escapeRegex` on `String`. -/
def escapeRegex (str : String) : String :=
  String.mk (escapeRegexL str.data)

/-- Interpretation of a piece of regex source text as a plain character
literal: a backslash followed by any character denotes that character, a
non-metacharacter denotes itself, and an unescaped metacharacter (or a
trailing backslash) means the text is not a plain literal (`none`).  This is
the JavaScript-regex meaning of the text `escapeRegex` produces. -/
def regexLit : List Char → Option (List Char)
  | [] => some []
  | c :: cs =>
    if c = '\\' then
      match cs with
      | [] => none
      | c2 :: cs2 => (regexLit cs2).map (fun l => c2 :: l)
    else if c ∈ metaChars then none
    else (regexLit cs).map (fun l => c :: l)

/-- Literal characters of a string as pattern items. -/
def litString (s : String) : List RItem :=
  s.data.map RItem.litc

/-- Pattern 1 of `fastScan`: `import\s+.*?\s+from\s+['"]<pkg>`.  The escaped
package name spliced into the regex source denotes the literal characters of
the package name (see the `regexLit`/`escapeRegexL` theorem), so it is embedded
as `litString pkg`. -/
def pat1 (pkg : String) : List RItem :=
  litString "import" ++ [RItem.wsPlus, RItem.anyLazy, RItem.wsPlus]
    ++ litString "from" ++ [RItem.wsPlus, RItem.quote] ++ litString pkg

/-- Pattern 2 of `fastScan`: `import\s*\(\s*['"]<pkg>`. -/
def pat2 (pkg : String) : List RItem :=
  litString "import" ++ [RItem.wsStar, RItem.litc '(', RItem.wsStar, RItem.quote]
    ++ litString pkg

/-- Pattern 3 of `fastScan`: `require\s*\(\s*['"]<pkg>`. -/
def pat3 (pkg : String) : List RItem :=
  litString "require" ++ [RItem.wsStar, RItem.litc '(', RItem.wsStar, RItem.quote]
    ++ litString pkg

/-- Pattern 4 of `fastScan`: `export\s+.*?\s+from\s+['"]<pkg>`. -/
def pat4 (pkg : String) : List RItem :=
  litString "export" ++ [RItem.wsPlus, RItem.anyLazy, RItem.wsPlus]
    ++ litString "from" ++ [RItem.wsPlus, RItem.quote] ++ litString pkg

/-- Pattern 5 of `fastScan`: the bare quoted literal `['"]<pkg>['"]`. -/
def pat5 (pkg : String) : List RItem :=
  [RItem.quote] ++ litString pkg ++ [RItem.quote]

/-- Does any of the five `fastScan` patterns for `pkg` match the content? -/
def anyPattern (content : String) (pkg : String) : Bool :=
  searchFrom (pat1 pkg) content.data || searchFrom (pat2 pkg) content.data ||
  searchFrom (pat3 pkg) content.data || searchFrom (pat4 pkg) content.data ||
  searchFrom (pat5 pkg) content.data

/-- Insertion into a JavaScript `Set` materialized as a list in insertion
order. -/
def pushIfNew (l : List String) (x : String) : List String :=
  if x ∈ l then l else l ++ [x]

/-- The content-level part of `fastScan` (`src/scanner.ts`): for each declared
name, add it to the result set when any of the five patterns matches. -/
def fastScanContent (content : String) (names : List String) : List String :=
  names.foldl (fun found pkg => if anyPattern content pkg then pushIfNew found pkg else found) []

/-- `Array.from(new Set(...))` over an iteration: deduplicate keeping first
occurrences, in order. -/
def dedupFirst (l : List String) : List String :=
  l.foldl pushIfNew []

/-! ## `src/cache.ts`: `CacheManager.get` at the level of one call

`get` reads the cache file, parses it as JSON, stats the source file and
compares modification times; every throw is caught and turned into a miss.
The three I/O outcomes of one call are captured by `CacheProbe`. -/

/-- The I/O outcomes observed by a single `CacheManager.get` call:
the cache-file read (`none` = missing/unreadable), the `JSON.parse` of its
content (`none` = throw), and the `stat` of the source file (`none` = throw,
otherwise the current mtime). -/
structure CacheProbe where
  readCacheFile : Option String
  parseJson : String → Option CacheEntry
  statMtime : Option Int

/-- `CacheManager.get` from `src/cache.ts`. -/
def cacheGet (enabled : Bool) (io : CacheProbe) : Option CacheEntry :=
  if enabled then
    match io.readCacheFile with
    | none => none
    | some cacheContent =>
      match io.parseJson cacheContent with
      | none => none
      | some cached =>
        match io.statMtime with
        | none => none
        | some currentMtime =>
          if cached.mtime ≠ currentMtime then none else some cached
  else none

/-! ## `src/package.ts` -/

/-- A parsed `package.json`, restricted to the four dependency sections; each
section is the ordered association list of its keys (JavaScript object keys are
unique). -/
structure PackageJsonModel where
  dependencies : List (String × String)
  devDependencies : List (String × String)
  optionalDependencies : List (String × String)
  peerDependencies : List (String × String)

/-- JavaScript truthiness of `section?.[name]`: the key is present and its
value (a version string) is nonempty. -/
def truthyLookup (l : List (String × String)) (name : String) : Bool :=
  match l.lookup name with
  | some v => decide (v ≠ "")
  | none => false

/-- `getAllDependencyNames` from `src/package.ts`: the keys of the four
sections in order, deduplicated through a `Set`. -/
def getAllDependencyNames (pkg : PackageJsonModel) : List String :=
  dedupFirst (pkg.dependencies.map Prod.fst ++ pkg.devDependencies.map Prod.fst
    ++ pkg.optionalDependencies.map Prod.fst ++ pkg.peerDependencies.map Prod.fst)

/-- `getDependencySection` from `src/package.ts`. -/
def getDependencySection (pkg : PackageJsonModel) (name : String) : Option String :=
  if truthyLookup pkg.dependencies name then some "dependencies"
  else if truthyLookup pkg.devDependencies name then some "devDependencies"
  else if truthyLookup pkg.optionalDependencies name then some "optionalDependencies"
  else if truthyLookup pkg.peerDependencies name then some "peerDependencies"
  else none

/-! ## `src/analyzer.ts`: orchestration

The file system and the SWC parser are modelled by a deterministic snapshot. -/

/-- A deterministic snapshot of the environment a scan runs against:
per path, the file content (`none` = `readFile` throws) and mtime (`none` =
`stat` throws); `parse path content` is the outcome of `parseSync` plus the
AST walk of `src/parser.ts` (`none` = the parser threw — `parseFile` catches
this and yields `[]`); `hashFn` is the SHA-256 hex digest. -/
structure FileEnv where
  content : String → Option String
  mtime : String → Option Int
  parse : String → String → Option (List ParsedImport)
  hashFn : String → String

/-- `parseFile` from `src/parser.ts`: the parse outcome with the internal
`try`/`catch` that turns a parser throw into the empty import list. -/
def parseFileModel (env : FileEnv) (filePath content : String) : List ParsedImport :=
  (env.parse filePath content).getD []

/-- `fastScan` from `src/scanner.ts`: reads the file itself and returns `[]`
when the read throws. -/
def fastScan (env : FileEnv) (filePath : String) (packageNames : List String) : List String :=
  match env.content filePath with
  | none => []
  | some content => fastScanContent content packageNames

/-- The mutable state threaded through `runScan`: the per-package evidence
lists, the per-package `(hasClient, hasServer)` flags, and the cache store
(one optional entry per file path). -/
structure ScanState where
  evidence : String → List EvidenceEntry
  side : String → Bool × Bool
  store : String → Option CacheEntry

/-- `addEvidence` from `src/analyzer.ts`. -/
def addEvidence (m : String → List EvidenceEntry) (pkg : String) (e : EvidenceEntry) :
    String → List EvidenceEntry :=
  fun q => if q = pkg then m pkg ++ [e] else m q

/-- `updateSideMap` from `src/analyzer.ts`. -/
def updateSideMap (m : String → Bool × Bool) (pkg : String) (isClient : Bool) :
    String → Bool × Bool :=
  fun q => if q = pkg then
    (if isClient then (true, (m pkg).2) else ((m pkg).1, true))
  else m q

/-- `CacheManager.get` against the store-as-map view used by the scan: the
entry is valid only if present and its stored mtime equals the file's current
mtime (the `stat` inside `get`); disabled caching always misses. -/
def storeGetVal (enabled : Bool) (env : FileEnv) (entry : Option CacheEntry)
    (filePath : String) : Option CacheEntry :=
  if enabled then
    match entry, env.mtime filePath with
    | some c, some m => if c.mtime = m then some c else none
    | _, _ => none
  else none

/-- The observable effect of `processFile` on the shared maps: the
`addEvidence` calls, the `updateSideMap` calls, and the `cache.set` payload
(if any), in program order. -/
structure FileEffect where
  ev : List (String × EvidenceEntry)
  sides : List (String × Bool)
  write : Option CacheEntry
deriving DecidableEq, Repr

/-- The cache-miss path of `processFile` (`src/analyzer.ts`): Stage A, then
read + Stage B + directive detection + per-import evidence, then the cache
write; a `readFile` throw after Stage A falls into the `catch` that records a
`string_reference` entry per Stage A candidate.  (`parseFile` itself never
throws: a parser throw is caught inside it, yielding `[]`.) -/
def processMissEffect (env : FileEnv) (packageNames : List String)
    (filePath : String) (stats : Option Int) : FileEffect :=
  let candidates := fastScan env filePath packageNames
  if candidates.isEmpty then { ev := [], sides := [], write := none }
  else
    match env.content filePath with
    | none =>
      { ev := candidates.map (fun pkg =>
          (pkg, { file := filePath, line := none, type := "string_reference",
                  snippet := some "(detected via string scan)" })),
        sides := [],
        write := none }
    | some content =>
      let imports := parseFileModel env filePath content
      let isClient := detectUseClient content
      let kept := imports.filter (fun imp => decide (imp.packageName ∈ packageNames))
      { ev := kept.map (fun imp =>
          (imp.packageName,
           { file := filePath, line := some imp.line, type := imp.type,
             snippet := some (String.mk (extractSnippet content.data imp.line)) })),
        sides := kept.map (fun imp => (imp.packageName, isClient)),
        write :=
          match stats with
          | some m => some { hash := env.hashFn content, mtime := m,
                             imports := dedupFirst (kept.map (fun imp => imp.packageName)),
                             isClient := isClient }
          | none => none }

/-- The observable effect of `processFile` given the result of the initial
`cache.get`: a valid cached entry whose mtime matches the current `stat`
replays one synthetic `static_import` entry per cached name; otherwise the
miss path runs. -/
def processFileEffect (env : FileEnv) (packageNames : List String)
    (cached : Option CacheEntry) (filePath : String) : FileEffect :=
  let stats := env.mtime filePath
  match cached, stats with
  | some c, some m =>
    if c.mtime = m then
      { ev := c.imports.map (fun pkg =>
          (pkg, { file := filePath, line := none, type := "static_import",
                  snippet := some "(cached)" })),
        sides := c.imports.map (fun pkg => (pkg, c.isClient)),
        write := none }
    else processMissEffect env packageNames filePath stats
  | _, _ => processMissEffect env packageNames filePath stats

/-- Apply a `FileEffect` to the scan state; the cache write goes through
`cache.set`, which is a no-op when caching is disabled. -/
def applyEffect (enabled : Bool) (st : ScanState) (filePath : String)
    (eff : FileEffect) : ScanState :=
  { evidence := eff.ev.foldl (fun m pe => addEvidence m pe.1 pe.2) st.evidence,
    side := eff.sides.foldl (fun m ps => updateSideMap m ps.1 ps.2) st.side,
    store :=
      match eff.write with
      | some c =>
        if enabled then (fun p => if p = filePath then some c else st.store p)
        else st.store
      | none => st.store }

/-- `processFile` from `src/analyzer.ts`. -/
def processFile (enabled : Bool) (env : FileEnv) (packageNames : List String)
    (st : ScanState) (filePath : String) : ScanState :=
  applyEffect enabled st filePath
    (processFileEffect env packageNames (storeGetVal enabled env (st.store filePath) filePath) filePath)

/-- Scan configuration: the cache flag (`!options.noCache`) and the two
thresholds. -/
structure ScanConfig where
  cacheEnabled : Bool
  minUnused : ℚ
  minUsed : ℚ

/-- The run-level totals of a scan. -/
structure ScanTotals where
  used : Nat
  unused : Nat
  uncertain : Nat
deriving DecidableEq, Repr

/-- The part of `ScanResult` produced by the core (`src/types.ts`):
the package results and the totals. -/
structure ScanOutcome where
  packages : List PackageResult
  totals : ScanTotals
deriving DecidableEq, Repr

/-- The state after the per-file loop of `runScan`. -/
def scanStateAfter (cfg : ScanConfig) (env : FileEnv) (pkg : PackageJsonModel)
    (files : List String) (store0 : String → Option CacheEntry) : ScanState :=
  files.foldl (processFile cfg.cacheEnabled env (getAllDependencyNames pkg))
    { evidence := fun _ => [], side := fun _ => (false, false), store := store0 }

/-- The result-building loop body of `runScan` (`src/analyzer.ts`): one
`PackageResult` for one declared dependency name. -/
def buildPackageResult (cfg : ScanConfig) (pkg : PackageJsonModel) (st : ScanState)
    (depName : String) : PackageResult :=
  let evidence := st.evidence depName
  let confidence := calculateConfidence evidence
  let status := classifyDependency confidence cfg.minUnused cfg.minUsed
  let sec := (getDependencySection pkg depName).getD "dependencies"
  { name := depName, sectionName := sec, status := status, confidence := confidence,
    side := determineUsageSide (st.side depName), evidence := evidence,
    notes := generateNotes status evidence sec }

/-- `runScan` from `src/analyzer.ts`: process every file, then build one
`PackageResult` per declared dependency name and the totals.  Returns the
outcome together with the final cache store. -/
def runScan (cfg : ScanConfig) (env : FileEnv) (pkg : PackageJsonModel)
    (files : List String) (store0 : String → Option CacheEntry) :
    ScanOutcome × (String → Option CacheEntry) :=
  let st := scanStateAfter cfg env pkg files store0
  let packages := (getAllDependencyNames pkg).map (buildPackageResult cfg pkg st)
  ({ packages := packages,
     totals :=
       { used := (packages.filter (fun p => decide (p.status = DependencyStatus.used))).length,
         unused := (packages.filter (fun p => decide (p.status = DependencyStatus.unused))).length,
         uncertain := (packages.filter (fun p => decide (p.status = DependencyStatus.uncertain))).length } },
   st.store)

/-- The cache value at a file's key after `processFile`, as a function of its
previous value: the new value when a `cache.set` happened, the old value
otherwise.  This is a derived view of `processFile` used to reason about
repeated scans. -/
def cacheStep (enabled : Bool) (env : FileEnv) (packageNames : List String)
    (filePath : String) (c0 : Option CacheEntry) : Option CacheEntry :=
  match (processFileEffect env packageNames (storeGetVal enabled env c0 filePath) filePath).write with
  | some c => if enabled then some c else c0
  | none => c0

/-! ## Concrete environments used for evaluations -/

/-- The default thresholds (`minConfidenceUnused = 0.30`, `minConfidenceUsed = 0.70`)
with caching enabled. -/
def cfgDefault : ScanConfig := { cacheEnabled := true, minUnused := 3/10, minUsed := 7/10 }

/-- An environment with a single file `b.ts` whose content mentions `some-pkg`
only as a bare string literal and on which the Stage B parser throws
(`parse` is `none` everywhere). -/
def envB : FileEnv :=
  { content := fun p => if p = "b.ts" then some "const s = \"some-pkg\";" else none,
    mtime := fun p => if p = "b.ts" then some 100 else none,
    parse := fun _ _ => none,
    hashFn := fun _ => "h" }

/-- A manifest declaring only `some-pkg` as a runtime dependency. -/
def pjB : PackageJsonModel := ⟨[("some-pkg", "1.0.0")], [], [], []⟩

/-- An environment with a single file `a.ts` containing one dynamic import of
`pkg`, which the Stage B parser extracts successfully. -/
def envA : FileEnv :=
  { content := fun p => if p = "a.ts" then some "import(\"pkg\")" else none,
    mtime := fun p => if p = "a.ts" then some 7 else none,
    parse := fun p c =>
      if p = "a.ts" ∧ c = "import(\"pkg\")" then some [⟨"pkg", "dynamic_import", 1, false⟩]
      else none,
    hashFn := fun _ => "h" }

/-- A manifest declaring only `pkg` as a runtime dependency. -/
def pjA : PackageJsonModel := ⟨[("pkg", "1.0.0")], [], [], []⟩

/-- A `CacheManager.get` call that finds a well-formed cache entry whose stored
mtime (5) differs from the file's current mtime (6). -/
def probeStale : CacheProbe :=
  { readCacheFile := some "cc",
    parseJson := fun s => if s = "cc" then some ⟨"h", 5, [], false⟩ else none,
    statMtime := some 6 }

/-- An environment whose only observable feature is that every path currently
has mtime 5. -/
def envFixedMtime : FileEnv :=
  { content := fun _ => none, mtime := fun _ => some 5,
    parse := fun _ _ => none, hashFn := fun _ => "" }

/-- A cache entry matching `envFixedMtime` (stored mtime 5). -/
def entryFixed : CacheEntry := ⟨"h", 5, ["p"], true⟩

/-! # Theorems

First a toolbox of lemmas about the character-level operations, the matcher
and the state fold; then one theorem per specification claim. -/

theorem splitOnChar_ne_nil (sep : Char) (l : List Char) : splitOnChar sep l ≠ [] := by
  cases l with
  | nil => simp [splitOnChar]
  | cons c cs =>
    simp only [splitOnChar]
    split <;> simp

theorem mem_splitOnChar_no_sep (sep : Char) :
    ∀ (l : List Char) (x : List Char), x ∈ splitOnChar sep l → sep ∉ x := by
  intro l
  induction l with
  | nil =>
    intro x hx
    simp [splitOnChar] at hx
    simp [hx]
  | cons c cs ih =>
    intro x hx
    simp only [splitOnChar] at hx
    by_cases hc : c = sep
    · rw [if_pos hc] at hx
      rcases List.mem_cons.mp hx with h1 | h2
      · simp [h1]
      · exact ih x h2
    · rw [if_neg hc] at hx
      rcases List.mem_cons.mp hx with h1 | h2
      · subst h1
        intro hmem
        rcases List.mem_cons.mp hmem with h3 | h4
        · exact hc h3.symm
        · cases hsp : splitOnChar sep cs with
          | nil => exact splitOnChar_ne_nil sep cs hsp
          | cons h t =>
            rw [hsp] at h4
            exact ih h (by rw [hsp]; exact List.mem_cons_self h t) h4
      · exact ih x (List.mem_of_mem_tail h2)

theorem splitOnChar_no_sep (sep : Char) (l : List Char) (h : sep ∉ l) :
    splitOnChar sep l = [l] := by
  induction l with
  | nil => rfl
  | cons c cs ih =>
    have hc : c ≠ sep := fun hcc => h (hcc ▸ List.mem_cons_self c cs)
    have hcs : sep ∉ cs := fun hm => h (List.mem_cons_of_mem c hm)
    simp only [splitOnChar, if_neg hc, ih hcs]
    rfl

theorem splitOnChar_append (sep : Char) (a b : List Char) (ha : sep ∉ a) :
    splitOnChar sep (a ++ sep :: b) = a :: splitOnChar sep b := by
  induction a with
  | nil => simp [splitOnChar]
  | cons c a' ih =>
    have hc : c ≠ sep := fun hcc => ha (hcc ▸ List.mem_cons_self c a')
    have ha' : sep ∉ a' := fun hm => ha (List.mem_cons_of_mem c hm)
    show splitOnChar sep (c :: (a' ++ sep :: b)) = (c :: a') :: splitOnChar sep b
    simp only [splitOnChar, if_neg hc]
    rw [ih ha']
    rfl

theorem splitOnChar_headD_cons (sep c : Char) (cs : List Char) (h : c ≠ sep) :
    (splitOnChar sep (c :: cs)).headD [] = c :: (splitOnChar sep cs).headD [] := by
  simp only [splitOnChar, if_neg h]
  rfl

theorem normalizeL_no_sep (r : List Char) (h : '/' ∉ r) : normalizeL r = r := by
  simp [normalizeL, splitOnChar_no_sep '/' r h]

theorem normalizeL_idem (l : List Char) : normalizeL (normalizeL l) = normalizeL l := by
  by_cases hcond : l.head? = some '@' ∧ 2 ≤ (splitOnChar '/' l).length
  · obtain ⟨hat, hlen⟩ := hcond
    cases hsp : splitOnChar '/' l with
    | nil => exact absurd hsp (splitOnChar_ne_nil '/' l)
    | cons p0 P' =>
      cases P' with
      | nil => rw [hsp] at hlen; simp at hlen
      | cons p1 rest =>
        have hn : normalizeL l = p0 ++ '/' :: p1 := by
          simp [normalizeL, hsp, hat]
        have hp0 : '/' ∉ p0 :=
          mem_splitOnChar_no_sep '/' l p0 (by rw [hsp]; exact List.mem_cons_self _ _)
        have hp1 : '/' ∉ p1 :=
          mem_splitOnChar_no_sep '/' l p1
            (by rw [hsp]; exact List.mem_cons_of_mem _ (List.mem_cons_self _ _))
        have hsplit : splitOnChar '/' (p0 ++ '/' :: p1) = [p0, p1] := by
          rw [splitOnChar_append '/' p0 p1 hp0, splitOnChar_no_sep '/' p1 hp1]
        have hp0head : p0.head? = some '@' := by
          cases l with
          | nil => simp at hat
          | cons c cs =>
            have hc : c = '@' := by simpa using hat
            subst hc
            have := splitOnChar_headD_cons '/' '@' cs (by decide)
            rw [hsp] at this
            simp at this
            rw [this]
            rfl
        have hhead : (p0 ++ '/' :: p1).head? = some '@' := by
          cases p0 with
          | nil => simp at hp0head
          | cons x xs => simpa using hp0head
        rw [hn, normalizeL, hsplit]
        simp [hhead]
  · have hn : normalizeL l = (splitOnChar '/' l).headD [] := by
      simp only [normalizeL]
      rw [if_neg hcond]
    have hmem : (splitOnChar '/' l).headD [] ∈ splitOnChar '/' l := by
      cases hsp : splitOnChar '/' l with
      | nil => exact absurd hsp (splitOnChar_ne_nil '/' l)
      | cons h t => exact List.mem_cons_self h t
    have hns : '/' ∉ (splitOnChar '/' l).headD [] :=
      mem_splitOnChar_no_sep '/' l _ hmem
    rw [hn, normalizeL_no_sep _ hns]

/-- **C7**: normalization keeps the first two `/`-segments of a scoped
specifier and the first segment otherwise, maps the empty string to itself,
and is idempotent. -/
theorem normalize_spec :
    normalizePackageName "@scope/pkg/sub/path" = "@scope/pkg"
    ∧ normalizePackageName "lodash/debounce" = "lodash"
    ∧ normalizePackageName "react" = "react"
    ∧ normalizePackageName "" = ""
    ∧ ∀ s : String, normalizePackageName (normalizePackageName s) = normalizePackageName s := by
  refine ⟨by decide, by decide, by decide, by decide, fun s => ?_⟩
  show String.mk (normalizeL (String.mk (normalizeL s.data)).data) = String.mk (normalizeL s.data)
  exact congrArg String.mk (normalizeL_idem s.data)

unseal Rat.mul Rat.inv Rat.add Rat.sub

theorem le_foldl_max (l : List ℚ) (a : ℚ) : a ≤ l.foldl max a := by
  induction l generalizing a with
  | nil => exact le_refl a
  | cons x xs ih => exact le_trans (le_max_left a x) (ih (max a x))

theorem foldl_max_mono (l : List ℚ) (a b : ℚ) (h : a ≤ b) :
    l.foldl max a ≤ l.foldl max b := by
  induction l generalizing a b with
  | nil => exact h
  | cons x xs ih => exact ih (max a x) (max b x) (max_le_max h (le_refl x))

theorem le_maxList_head (x : ℚ) (l : List ℚ) : x ≤ maxList (x :: l) :=
  le_foldl_max l x

theorem maxList_le_cons (x y : ℚ) (ys : List ℚ) :
    maxList (y :: ys) ≤ maxList (x :: y :: ys) := by
  show ys.foldl max y ≤ ys.foldl max (max x y)
  exact foldl_max_mono ys y (max x y) (le_max_right x y)

theorem evidenceScore_lb (t : String) : 3/10 ≤ evidenceScore t := by
  simp only [evidenceScore, evidenceScoreTable]
  repeat' split
  all_goals norm_num

theorem calculateConfidence_cons (e : EvidenceEntry) (l : List EvidenceEntry) :
    calculateConfidence (e :: l)
      = min (maxList ((e :: l).map (fun x => evidenceScore x.type))
          + min ((l.length : ℚ) * (5/100)) (15/100)) 1 := by
  simp only [calculateConfidence, List.length_cons]
  norm_num

theorem calculateConfidence_nonneg (l : List EvidenceEntry) :
    0 ≤ calculateConfidence l := by
  cases l with
  | nil => simp [calculateConfidence]
  | cons e t =>
    rw [calculateConfidence_cons]
    have h1 : (3/10 : ℚ) ≤ maxList ((e :: t).map (fun x => evidenceScore x.type)) := by
      have := le_maxList_head (evidenceScore e.type) (t.map (fun x => evidenceScore x.type))
      calc (3/10 : ℚ) ≤ evidenceScore e.type := evidenceScore_lb e.type
        _ ≤ _ := this
    have h2 : (0 : ℚ) ≤ min ((t.length : ℚ) * (5/100)) (15/100) := by
      refine le_min ?_ (by norm_num)
      positivity
    refine le_min ?_ (by norm_num)
    linarith

theorem calculateConfidence_le_one (l : List EvidenceEntry) :
    calculateConfidence l ≤ 1 := by
  cases l with
  | nil => simp [calculateConfidence]
  | cons e t => rw [calculateConfidence_cons]; exact min_le_right _ _

theorem calculateConfidence_mono (e : EvidenceEntry) (l : List EvidenceEntry) :
    calculateConfidence l ≤ calculateConfidence (e :: l) := by
  cases l with
  | nil =>
    simpa [calculateConfidence] using calculateConfidence_nonneg [e]
  | cons y ys =>
    rw [calculateConfidence_cons, calculateConfidence_cons]
    refine min_le_min (add_le_add ?_ ?_) (le_refl 1)
    · simpa using maxList_le_cons (evidenceScore e.type) (evidenceScore y.type)
        (ys.map (fun x => evidenceScore x.type))
    · refine min_le_min ?_ (le_refl _)
      have : ((y :: ys).length : ℚ) = (ys.length : ℚ) + 1 := by
        push_cast [List.length_cons]
        ring
      nlinarith [Nat.cast_nonneg (α := ℚ) ys.length]

/-- **C4**: the confidence function returns 0 on the empty list, and otherwise
the maximum base weight plus a corroboration boost of
`min((count - 1) * 0.05, 0.15)`, clamped at 1; the base weights are the
fixed table with a 0.5 default for unrecognized types; the result always lies
in `[0, 1]`, and adding an evidence entry never decreases it. -/
theorem confidence_spec :
    calculateConfidence [] = 0
    ∧ (∀ (e : EvidenceEntry) (l : List EvidenceEntry),
        calculateConfidence (e :: l)
          = min (maxList ((e :: l).map (fun x => evidenceScore x.type))
              + min ((l.length : ℚ) * (5/100)) (15/100)) 1)
    ∧ evidenceScore "static_import" = 1 ∧ evidenceScore "export_from" = 1
    ∧ evidenceScore "require" = 1 ∧ evidenceScore "type_import" = 9/10
    ∧ evidenceScore "css_import" = 9/10 ∧ evidenceScore "dynamic_import" = 8/10
    ∧ evidenceScore "plugin_reference" = 5/10 ∧ evidenceScore "config_reference" = 4/10
    ∧ evidenceScore "string_reference" = 3/10
    ∧ (∀ t : String, t ≠ "static_import" → t ≠ "type_import" → t ≠ "export_from" →
        t ≠ "require" → t ≠ "dynamic_import" → t ≠ "css_import" →
        t ≠ "config_reference" → t ≠ "string_reference" → t ≠ "plugin_reference" →
        evidenceScore t = 1/2)
    ∧ (∀ l : List EvidenceEntry, 0 ≤ calculateConfidence l ∧ calculateConfidence l ≤ 1)
    ∧ (∀ (e : EvidenceEntry) (l : List EvidenceEntry),
        calculateConfidence l ≤ calculateConfidence (e :: l)) := by
  refine ⟨by decide, calculateConfidence_cons, by decide, by decide, by decide, by decide,
    by decide, by decide, by decide, by decide, by decide, ?_,
    fun l => ⟨calculateConfidence_nonneg l, calculateConfidence_le_one l⟩,
    calculateConfidence_mono⟩
  intro t h1 h2 h3 h4 h5 h6 h7 h8 h9
  simp [evidenceScore, evidenceScoreTable, h1, h2, h3, h4, h5, h6, h7, h8, h9]

/-- Witness for `confidence_spec`: the unrecognized-type default evaluated at a
concrete type string. -/
theorem confidence_spec_witness : evidenceScore "mystery_evidence" = 1/2 :=
  confidence_spec.2.2.2.2.2.2.2.2.2.2.2.1 "mystery_evidence"
    (by decide) (by decide) (by decide) (by decide) (by decide) (by decide)
    (by decide) (by decide) (by decide)

/-- **C5**: classification returns `used` iff the confidence is at least
`minUsed`, `unused` iff it is strictly below `minUnused`, and `uncertain`
otherwise, with the boundary values of the spec's examples. -/
theorem classify_spec :
    (∀ c a b : ℚ, a ≤ b →
      ((classifyDependency c a b = DependencyStatus.used ↔ b ≤ c)
        ∧ (classifyDependency c a b = DependencyStatus.unused ↔ c < a)
        ∧ (classifyDependency c a b = DependencyStatus.uncertain ↔ a ≤ c ∧ c < b)))
    ∧ classifyDependency (75/100) (3/10) (7/10) = DependencyStatus.used
    ∧ classifyDependency (7/10) (3/10) (7/10) = DependencyStatus.used
    ∧ classifyDependency (29/100) (3/10) (7/10) = DependencyStatus.unused
    ∧ classifyDependency (3/10) (3/10) (7/10) = DependencyStatus.uncertain
    ∧ classifyDependency (69/100) (3/10) (7/10) = DependencyStatus.uncertain := by
  refine ⟨?_, by decide, by decide, by decide, by decide, by decide⟩
  intro c a b hab
  unfold classifyDependency
  split_ifs with h1 h2
  · refine ⟨⟨fun _ => h1, fun _ => rfl⟩, ⟨fun h => by simp at h, fun hc => absurd h1 (by linarith)⟩,
      ⟨fun h => by simp at h, fun ⟨_, hc⟩ => absurd h1 (by linarith)⟩⟩
  · refine ⟨⟨fun h => by simp at h, fun hb => absurd hb h1⟩, ⟨fun _ => h2, fun _ => rfl⟩,
      ⟨fun h => by simp at h, fun ⟨ha, _⟩ => absurd h2 (by linarith)⟩⟩
  · refine ⟨⟨fun h => by simp at h, fun hb => absurd hb h1⟩,
      ⟨fun h => by simp at h, fun hc => absurd hc h2⟩,
      ⟨fun _ => ⟨by linarith [not_lt.mp h2], lt_of_not_le h1⟩, fun _ => rfl⟩⟩

/-- Witness for `classify_spec`: a confidence strictly between the two
thresholds is classified `uncertain`. -/
theorem classify_spec_witness :
    classifyDependency (1/2) (3/10) (7/10) = DependencyStatus.uncertain :=
  ((classify_spec.1 (1/2) (3/10) (7/10) (by norm_num)).2.2).mpr ⟨by norm_num, by norm_num⟩

/-- **C9**: `CacheManager.get` returns `null` (never an error) when caching is
disabled, when the cache file is missing/unreadable, when its JSON fails to
parse, when `stat` fails, or when the stored mtime differs from the current
one; whenever it returns an entry, caching is enabled and the entry is the
parsed one with stored mtime equal to the file's current mtime. -/
theorem cache_get_spec :
    (∀ io : CacheProbe, cacheGet false io = none)
    ∧ (∀ io : CacheProbe, io.readCacheFile = none → cacheGet true io = none)
    ∧ (∀ (io : CacheProbe) (s : String),
        io.readCacheFile = some s → io.parseJson s = none → cacheGet true io = none)
    ∧ (∀ (io : CacheProbe) (s : String) (e : CacheEntry),
        io.readCacheFile = some s → io.parseJson s = some e → io.statMtime = none →
        cacheGet true io = none)
    ∧ (∀ (io : CacheProbe) (s : String) (e : CacheEntry) (m : Int),
        io.readCacheFile = some s → io.parseJson s = some e → io.statMtime = some m →
        e.mtime ≠ m → cacheGet true io = none)
    ∧ (∀ (enabled : Bool) (io : CacheProbe) (e : CacheEntry),
        cacheGet enabled io = some e →
        enabled = true ∧ io.statMtime = some e.mtime
          ∧ ∃ s, io.readCacheFile = some s ∧ io.parseJson s = some e) := by
  refine ⟨fun io => rfl, ?_, ?_, ?_, ?_, ?_⟩
  · intro io h; simp [cacheGet, h]
  · intro io s h1 h2; simp [cacheGet, h1, h2]
  · intro io s e h1 h2 h3; simp [cacheGet, h1, h2, h3]
  · intro io s e m h1 h2 h3 h4; simp [cacheGet, h1, h2, h3, h4]
  · intro enabled io e h
    cases enabled with
    | false => exact absurd h (by simp [cacheGet])
    | true =>
      cases hr : io.readCacheFile with
      | none => simp [cacheGet, hr] at h
      | some s =>
        cases hp : io.parseJson s with
        | none => simp [cacheGet, hr, hp] at h
        | some cached =>
          cases hm : io.statMtime with
          | none => simp [cacheGet, hr, hp, hm] at h
          | some m =>
            by_cases hne : cached.mtime = m
            · have he : cached = e := by
                simp [cacheGet, hr, hp, hm, hne] at h
                exact h
              subst he
              refine ⟨rfl, ?_, s, rfl, hp⟩
              rw [hne]
            · simp [cacheGet, hr, hp, hm, hne] at h

/-- Witness for `cache_get_spec`: a stale stored mtime (5 against current 6)
is a miss. -/
theorem cache_get_spec_witness : cacheGet true probeStale = none :=
  cache_get_spec.2.2.2.2.1 probeStale "cc" ⟨"h", 5, [], false⟩ 6 rfl rfl rfl (by decide)

theorem pushIfNew_nodup (l : List String) (x : String) (h : l.Nodup) :
    (pushIfNew l x).Nodup := by
  unfold pushIfNew
  split
  · exact h
  · rw [← List.concat_eq_append]
    exact h.concat (by assumption)

theorem dedupFirst_nodup (l : List String) : (dedupFirst l).Nodup := by
  suffices h : ∀ (l acc : List String), acc.Nodup → (l.foldl pushIfNew acc).Nodup by
    exact h l [] List.nodup_nil
  intro l
  induction l with
  | nil => intro acc h; exact h
  | cons x xs ih => intro acc h; exact ih (pushIfNew acc x) (pushIfNew_nodup acc x h)

theorem status_filter_partition (l : List PackageResult) :
    (l.filter (fun p => decide (p.status = DependencyStatus.used))).length
      + (l.filter (fun p => decide (p.status = DependencyStatus.unused))).length
      + (l.filter (fun p => decide (p.status = DependencyStatus.uncertain))).length
      = l.length := by
  induction l with
  | nil => rfl
  | cons p t ih =>
    cases hp : p.status <;> simp [List.filter_cons, hp] <;> omega

/-- **C10**: a scan yields exactly one `PackageResult` per distinct declared
dependency name (the deduplicated union of the four manifest sections, so the
name list is duplicate-free), and the run totals partition the results:
`used + unused + uncertain` equals the number of `PackageResult`s. -/
theorem scan_results_invariants (cfg : ScanConfig) (env : FileEnv)
    (pkg : PackageJsonModel) (files : List String)
    (store0 : String → Option CacheEntry) :
    (runScan cfg env pkg files store0).1.packages.map (fun p => p.name)
        = getAllDependencyNames pkg
    ∧ (getAllDependencyNames pkg).Nodup
    ∧ (runScan cfg env pkg files store0).1.totals.used
        + (runScan cfg env pkg files store0).1.totals.unused
        + (runScan cfg env pkg files store0).1.totals.uncertain
        = (runScan cfg env pkg files store0).1.packages.length := by
  refine ⟨?_, dedupFirst_nodup _, ?_⟩
  · show ((getAllDependencyNames pkg).map
        (buildPackageResult cfg pkg (scanStateAfter cfg env pkg files store0))).map
        (fun p => p.name) = getAllDependencyNames pkg
    rw [List.map_map]
    have : ((fun p : PackageResult => p.name)
        ∘ buildPackageResult cfg pkg (scanStateAfter cfg env pkg files store0))
        = fun d => d := by
      funext d
      rfl
    rw [this]
    exact List.map_id _
  · exact status_filter_partition _

/-- **C6**: the 20-line directive detector (`detectUseClient`) accepts the
double-quoted directive with a trailing semicolon on the first line, but the
10-line CLI-facing variant (`hasUseClient`) rejects that very content — it
does no semicolon stripping — and accepts the directive appearing after
substantive code, contradicting the specified stop-at-first-substantive-line
semantics (and the repository's own test for `hasUseClient` with a
semicolon). -/
theorem directive_detector_divergence :
    hasUseClient "\"use client\";\n\nimport React from \"react\";" = false
    ∧ detectUseClient "\"use client\";\n\nimport React from \"react\";" = true
    ∧ hasUseClient "let a = 1\n\"use client\"" = true := by
  refine ⟨by decide, by decide, by decide⟩

/-- **C1**: on a file whose only reference to `some-pkg` is a bare string
literal and whose Stage B parse throws, the orchestrator records *no* evidence
at all — not the specified `string_reference` fallback — because `parseFile`
catches the parser throw internally and returns `[]`, so the analyzer's
fallback `catch` never runs for parse failures; the resulting classification
is confidence 0 / `unused` instead of the specified 0.3 / `uncertain`. -/
theorem parse_failure_records_no_fallback_evidence :
    fastScan envB "b.ts" ["some-pkg"] = ["some-pkg"]
    ∧ envB.parse "b.ts" "const s = \"some-pkg\";" = none
    ∧ (runScan cfgDefault envB pjB ["b.ts"] (fun _ => none)).1.packages
        = [{ name := "some-pkg", sectionName := "dependencies",
             status := DependencyStatus.unused, confidence := 0,
             side := UsageSide.unknown, evidence := [], notes := [] }] := by
  refine ⟨by decide, rfl, by decide⟩

/-- **C2**: in the same environment — Stage A candidate present, Stage B parse
throws — a cache entry *is* written for the file (with the empty matched-name
set), although the specification requires the cache write only on parse
success. -/
theorem parse_failure_still_writes_cache :
    envB.parse "b.ts" "const s = \"some-pkg\";" = none
    ∧ (runScan cfgDefault envB pjB ["b.ts"] (fun _ => none)).2 "b.ts"
        = some { hash := "h", mtime := 100, imports := [], isClient := false } := by
  refine ⟨rfl, by decide⟩

theorem bAndIff (a b : Bool) : (a && b) = true ↔ a = true ∧ b = true := by simp

theorem bOrIff (a b : Bool) : (a || b) = true ↔ a = true ∨ b = true := by simp

theorem matchSeq_nil (fuel : Nat) (cs : List Char) : matchSeq fuel [] cs = true := by
  cases fuel <;> rfl

theorem matchSeq_mono : ∀ (n : Nat) (ps : List RItem) (cs : List Char) (m : Nat),
    matchSeq n ps cs = true → n ≤ m → matchSeq m ps cs = true := by
  intro n
  induction n with
  | zero =>
    intro ps cs m h _
    cases ps with
    | nil => exact matchSeq_nil m cs
    | cons p ps' => simp [matchSeq] at h
  | succ n ih =>
    intro ps cs m h hle
    cases ps with
    | nil => exact matchSeq_nil m cs
    | cons it ps' =>
      cases m with
      | zero => omega
      | succ m' =>
        have hle' : n ≤ m' := by omega
        cases it with
        | litc c =>
          cases cs with
          | nil => simp [matchSeq] at h
          | cons c' cs' =>
            simp only [matchSeq] at h ⊢
            obtain ⟨h1, h2⟩ := (bAndIff _ _).mp h
            exact (bAndIff _ _).mpr ⟨h1, ih ps' cs' m' h2 hle'⟩
        | quote =>
          cases cs with
          | nil => simp [matchSeq] at h
          | cons c' cs' =>
            simp only [matchSeq] at h ⊢
            obtain ⟨h1, h2⟩ := (bAndIff _ _).mp h
            exact (bAndIff _ _).mpr ⟨h1, ih ps' cs' m' h2 hle'⟩
        | wsPlus =>
          cases cs with
          | nil => simp [matchSeq] at h
          | cons c' cs' =>
            simp only [matchSeq] at h ⊢
            obtain ⟨h1, h2⟩ := (bAndIff _ _).mp h
            rcases (bOrIff _ _).mp h2 with h3 | h3
            · exact (bAndIff _ _).mpr
                ⟨h1, (bOrIff _ _).mpr (Or.inl (ih ps' cs' m' h3 hle'))⟩
            · exact (bAndIff _ _).mpr
                ⟨h1, (bOrIff _ _).mpr (Or.inr (ih (RItem.wsPlus :: ps') cs' m' h3 hle'))⟩
        | wsStar =>
          simp only [matchSeq] at h ⊢
          rcases (bOrIff _ _).mp h with h3 | h3
          · exact (bOrIff _ _).mpr (Or.inl (ih ps' cs m' h3 hle'))
          · cases cs with
            | nil => simp at h3
            | cons c' cs' =>
              obtain ⟨h1, h2⟩ := (bAndIff _ _).mp h3
              exact (bOrIff _ _).mpr
                (Or.inr ((bAndIff _ _).mpr ⟨h1, ih (RItem.wsStar :: ps') cs' m' h2 hle'⟩))
        | anyLazy =>
          simp only [matchSeq] at h ⊢
          rcases (bOrIff _ _).mp h with h3 | h3
          · exact (bOrIff _ _).mpr (Or.inl (ih ps' cs m' h3 hle'))
          · cases cs with
            | nil => simp at h3
            | cons c' cs' =>
              obtain ⟨h1, h2⟩ := (bAndIff _ _).mp h3
              exact (bOrIff _ _).mpr
                (Or.inr ((bAndIff _ _).mpr ⟨h1, ih (RItem.anyLazy :: ps') cs' m' h2 hle'⟩))

theorem matchSeq_lit_append (l : List Char) (ps : List RItem) (cs : List Char) (n : Nat)
    (h : matchSeq n ps cs = true) :
    matchSeq (n + l.length) (l.map RItem.litc ++ ps) (l ++ cs) = true := by
  induction l with
  | nil => simpa using h
  | cons c l' ih =>
    show matchSeq ((n + l'.length) + 1) (RItem.litc c :: (l'.map RItem.litc ++ ps))
      (c :: (l' ++ cs)) = true
    simp only [matchSeq]
    simp [ih]

theorem matchSeq_quote_cons (q : Char) (hq : q = '"' ∨ q = squoteC) (ps : List RItem)
    (cs : List Char) (n : Nat) (h : matchSeq n ps cs = true) :
    matchSeq (n + 1) (RItem.quote :: ps) (q :: cs) = true := by
  simp only [matchSeq]
  refine (bAndIff _ _).mpr ⟨?_, h⟩
  rcases hq with h1 | h1 <;> simp [h1]

theorem searchFrom_of_match (p : List RItem) :
    ∀ (pre rest : List Char) (n : Nat), matchSeq n p rest = true →
      n ≤ p.length + rest.length + 1 → searchFrom p (pre ++ rest) = true := by
  intro pre
  induction pre with
  | nil =>
    intro rest n h hn
    have htop : matchTop p rest = true := matchSeq_mono n p rest _ h hn
    cases rest with
    | nil => simpa [searchFrom] using htop
    | cons c cs => simp [searchFrom, htop]
  | cons a pre' ih =>
    intro rest n h hn
    have hrec := ih rest n h hn
    simp [searchFrom, hrec]

theorem anyPattern_of_quoted (content pkg : String) (q1 q2 : Char)
    (hq1 : q1 = '"' ∨ q1 = squoteC) (hq2 : q2 = '"' ∨ q2 = squoteC)
    (hinf : (q1 :: (pkg.data ++ [q2])) <:+: content.data) :
    anyPattern content pkg = true := by
  obtain ⟨pre, suf, hps⟩ := hinf
  have m0 : matchSeq 1 [RItem.quote] (q2 :: suf) = true := by
    simp only [matchSeq]
    refine (bAndIff _ _).mpr ⟨?_, matchSeq_nil 0 suf⟩
    rcases hq2 with h1 | h1 <;> simp [h1]
  have m1 := matchSeq_lit_append pkg.data [RItem.quote] (q2 :: suf) 1 m0
  have m2 := matchSeq_quote_cons q1 hq1 _ _ _ m1
  have hrest : content.data = pre ++ (q1 :: (pkg.data ++ q2 :: suf)) := by
    rw [← hps]
    simp
  have hpat : pat5 pkg = RItem.quote :: (pkg.data.map RItem.litc ++ [RItem.quote]) := rfl
  have hsearch : searchFrom (pat5 pkg) content.data = true := by
    rw [hrest, hpat]
    refine searchFrom_of_match _ pre _ _ m2 ?_
    simp only [List.length_cons, List.length_append, List.length_map, List.length_singleton]
    omega
  simp [anyPattern, hsearch]

theorem mem_pushIfNew (l : List String) (x y : String) :
    y ∈ pushIfNew l x ↔ y ∈ l ∨ y = x := by
  unfold pushIfNew
  split
  · rename_i hx
    exact ⟨Or.inl, fun h => h.elim id (fun he => he ▸ hx)⟩
  · simp [List.mem_append]

theorem foldl_fastScan_sub (content : String) :
    ∀ (names acc : List String) (x : String),
      x ∈ names.foldl (fun found pkg =>
        if anyPattern content pkg then pushIfNew found pkg else found) acc →
      x ∈ acc ∨ x ∈ names := by
  intro names
  induction names with
  | nil => intro acc x h; exact Or.inl h
  | cons y rest ih =>
    intro acc x h
    simp only [List.foldl_cons] at h
    rcases ih _ x h with h1 | h1
    · by_cases hy : anyPattern content y = true
      · rw [if_pos hy] at h1
        rcases (mem_pushIfNew acc y x).mp h1 with h2 | h2
        · exact Or.inl h2
        · exact Or.inr (h2 ▸ List.mem_cons_self y rest)
      · rw [if_neg hy] at h1
        exact Or.inl h1
    · exact Or.inr (List.mem_cons_of_mem y h1)

theorem foldl_fastScan_mono (content : String) :
    ∀ (names acc : List String) (x : String), x ∈ acc →
      x ∈ names.foldl (fun found pkg =>
        if anyPattern content pkg then pushIfNew found pkg else found) acc := by
  intro names
  induction names with
  | nil => intro acc x h; exact h
  | cons y rest ih =>
    intro acc x h
    simp only [List.foldl_cons]
    apply ih
    by_cases hy : anyPattern content y = true
    · rw [if_pos hy]
      exact (mem_pushIfNew acc y x).mpr (Or.inl h)
    · rw [if_neg hy]
      exact h

theorem fastScanContent_complete_aux (content : String) :
    ∀ (names acc : List String) (pkg : String), pkg ∈ names → anyPattern content pkg = true →
      pkg ∈ names.foldl (fun found p =>
        if anyPattern content p then pushIfNew found p else found) acc := by
  intro names
  induction names with
  | nil => intro acc pkg h _; exact absurd h (List.not_mem_nil pkg)
  | cons y rest ih =>
    intro acc pkg hmem hpat
    simp only [List.foldl_cons]
    rcases List.mem_cons.mp hmem with h1 | h1
    · subst h1
      apply foldl_fastScan_mono
      rw [if_pos hpat]
      exact (mem_pushIfNew acc pkg pkg).mpr (Or.inr rfl)
    · exact ih _ pkg h1 hpat

theorem regexLit_escape : ∀ l : List Char, regexLit (escapeRegexL l) = some l := by
  intro l
  induction l with
  | nil => rfl
  | cons c cs ih =>
    by_cases hc : c ∈ metaChars
    · show regexLit ((if c ∈ metaChars then ['\\', c] else [c]) ++ escapeRegexL cs)
        = some (c :: cs)
      rw [if_pos hc]
      show regexLit ('\\' :: c :: escapeRegexL cs) = some (c :: cs)
      simp [regexLit, ih]
    · show regexLit ((if c ∈ metaChars then ['\\', c] else [c]) ++ escapeRegexL cs)
        = some (c :: cs)
      rw [if_neg hc]
      show regexLit (c :: escapeRegexL cs) = some (c :: cs)
      have hc2 : c ≠ '\\' := fun h => hc (h ▸ (by decide : '\\' ∈ metaChars))
      rw [regexLit.eq_def]
      simp [hc, hc2, ih]

/-- **C8**: the Stage A prefilter returns a subset of the declared names;
a declared name matched by any of the five patterns is included — in
particular any quoted occurrence of the name (the bare-string-literal
pattern) suffices; and the escaping of regex metacharacters makes the name
fragment of each pattern denote exactly the literal name. -/
theorem prefilter_spec :
    (∀ (content : String) (names : List String) (x : String),
        x ∈ fastScanContent content names → x ∈ names)
    ∧ (∀ (content : String) (names : List String) (pkg : String),
        pkg ∈ names → anyPattern content pkg = true → pkg ∈ fastScanContent content names)
    ∧ (∀ (content : String) (names : List String) (pkg : String) (q1 q2 : Char),
        pkg ∈ names → (q1 = '"' ∨ q1 = squoteC) → (q2 = '"' ∨ q2 = squoteC) →
        (q1 :: (pkg.data ++ [q2])) <:+: content.data →
        pkg ∈ fastScanContent content names)
    ∧ (∀ s : String, regexLit (escapeRegexL s.data) = some s.data) := by
  refine ⟨?_, ?_, ?_, fun s => regexLit_escape s.data⟩
  · intro content names x h
    rcases foldl_fastScan_sub content names [] x h with h1 | h1
    · exact absurd h1 (List.not_mem_nil x)
    · exact h1
  · intro content names pkg hmem hpat
    exact fastScanContent_complete_aux content names [] pkg hmem hpat
  · intro content names pkg q1 q2 hmem hq1 hq2 hinf
    exact fastScanContent_complete_aux content names [] pkg hmem
      (anyPattern_of_quoted content pkg q1 q2 hq1 hq2 hinf)

/-- Witness for `prefilter_spec`: a bare quoted occurrence of `pkg` puts it
into the prefilter result. -/
theorem prefilter_spec_witness :
    "pkg" ∈ fastScanContent "x \"pkg\" y" ["pkg"] :=
  prefilter_spec.2.2.1 "x \"pkg\" y" ["pkg"] "pkg" '"' '"' (by decide)
    (Or.inl rfl) (Or.inl rfl) ⟨['x', ' '], [' ', 'y'], by decide⟩

theorem processFile_store (enabled : Bool) (env : FileEnv) (names : List String)
    (st : ScanState) (f p : String) :
    (processFile enabled env names st f).store p
      = if p = f then cacheStep enabled env names f (st.store f) else st.store p := by
  unfold processFile applyEffect cacheStep
  cases hw : (processFileEffect env names (storeGetVal enabled env (st.store f) f) f).write with
  | none =>
    by_cases h : p = f <;> simp [h]
  | some c =>
    cases enabled <;> by_cases h : p = f <;> simp [h]

theorem processMissEffect_write_mtime (env : FileEnv) (names : List String)
    (f : String) (stats : Option Int) (c : CacheEntry)
    (h : (processMissEffect env names f stats).write = some c) :
    stats = some c.mtime := by
  simp only [processMissEffect] at h
  by_cases hc : (fastScan env f names).isEmpty = true
  · rw [if_pos hc] at h
    simp at h
  · rw [if_neg hc] at h
    cases hcon : env.content f with
    | none =>
      rw [hcon] at h
      simp at h
    | some content =>
      rw [hcon] at h
      cases stats with
      | none => simp at h
      | some m =>
        simp at h
        rw [← h]

theorem processFileEffect_write_mtime (env : FileEnv) (names : List String)
    (cached : Option CacheEntry) (f : String) (c : CacheEntry)
    (h : (processFileEffect env names cached f).write = some c) :
    env.mtime f = some c.mtime := by
  simp only [processFileEffect] at h
  cases cached with
  | none => exact processMissEffect_write_mtime env names f _ c h
  | some ce =>
    cases hm : env.mtime f with
    | none =>
      rw [hm] at h
      have := processMissEffect_write_mtime env names f none c h
      simp at this
    | some m =>
      rw [hm] at h
      by_cases he : ce.mtime = m
      · simp [he] at h
      · simp [he] at h
        exact processMissEffect_write_mtime env names f (some m) c h

theorem cacheStep_self_of_valid (env : FileEnv) (names : List String) (f : String)
    (c : CacheEntry) (h : env.mtime f = some c.mtime) :
    cacheStep true env names f (some c) = some c := by
  unfold cacheStep storeGetVal
  rw [h]
  simp [processFileEffect, h]

theorem cacheStep_cases (enabled : Bool) (env : FileEnv) (names : List String)
    (f : String) (c0 : Option CacheEntry) :
    cacheStep enabled env names f c0 = c0
    ∨ (enabled = true ∧ ∃ c, cacheStep enabled env names f c0 = some c
        ∧ env.mtime f = some c.mtime) := by
  cases hw : (processFileEffect env names (storeGetVal enabled env c0 f) f).write with
  | none =>
    left
    unfold cacheStep
    rw [hw]
  | some c =>
    cases enabled with
    | false =>
      left
      unfold cacheStep
      rw [hw]
      simp
    | true =>
      right
      refine ⟨rfl, c, ?_, processFileEffect_write_mtime env names _ f c hw⟩
      unfold cacheStep
      rw [hw]
      simp

theorem cacheStep_idem (enabled : Bool) (env : FileEnv) (names : List String)
    (f : String) (c0 : Option CacheEntry) :
    cacheStep enabled env names f (cacheStep enabled env names f c0)
      = cacheStep enabled env names f c0 := by
  rcases cacheStep_cases enabled env names f c0 with h | ⟨he, c, hc, hm⟩
  · rw [h]
    exact h
  · subst he
    rw [hc]
    exact cacheStep_self_of_valid env names f c hm

theorem foldl_processFile_store (enabled : Bool) (env : FileEnv) (names : List String) :
    ∀ (files : List String) (st : ScanState) (p : String),
      (files.foldl (processFile enabled env names) st).store p
        = if p ∈ files then cacheStep enabled env names p (st.store p) else st.store p := by
  intro files
  induction files with
  | nil => intro st p; simp
  | cons f rest ih =>
    intro st p
    simp only [List.foldl_cons]
    rw [ih (processFile enabled env names st f) p, processFile_store]
    by_cases hp : p = f
    · subst hp
      by_cases hr : p ∈ rest
      · simp [hr, cacheStep_idem, List.mem_cons]
      · simp [hr, List.mem_cons]
    · by_cases hr : p ∈ rest
      · simp [hp, hr, List.mem_cons]
      · simp [hp, hr, List.mem_cons]

/-- Counterexample to **C3** as stated: over an unchanged tree with the cache
enabled, the second run replays cached names as synthetic `static_import`
entries (snippet `"(cached)"`), so a dependency first seen through a
dynamic-import expression changes confidence from 0.8 to 1.0 and its evidence
entry changes shape — the two runs' `PackageResult` lists differ. -/
theorem second_run_differs_from_first :
    (runScan cfgDefault envA pjA ["a.ts"]
        ((runScan cfgDefault envA pjA ["a.ts"] (fun _ => none)).2)).1.packages
      ≠ (runScan cfgDefault envA pjA ["a.ts"] (fun _ => none)).1.packages := by
  decide

/-- **C3 (amended)**: the scan stabilizes from the second run on — with the
cache state left by one run, running again and running a third time produce
identical outcomes — and a cache hit replays exactly one synthetic
`static_import` evidence entry (snippet `"(cached)"`) per cached matched
name, so replay never duplicates evidence entries. -/
theorem scan_stabilizes_and_replay_shape :
    (∀ (cfg : ScanConfig) (env : FileEnv) (pkg : PackageJsonModel) (files : List String)
        (store0 : String → Option CacheEntry),
      (runScan cfg env pkg files
          ((runScan cfg env pkg files ((runScan cfg env pkg files store0).2)).2)).1
        = (runScan cfg env pkg files ((runScan cfg env pkg files store0).2)).1)
    ∧ (∀ (env : FileEnv) (packageNames : List String) (c : CacheEntry) (f : String) (m : Int),
        env.mtime f = some m → c.mtime = m →
        processFileEffect env packageNames (some c) f
          = { ev := c.imports.map (fun pkg =>
                (pkg, { file := f, line := none, type := "static_import",
                        snippet := some "(cached)" })),
              sides := c.imports.map (fun pkg => (pkg, c.isClient)),
              write := none }) := by
  constructor
  · intro cfg env pkg files store0
    have hstore : ∀ s0 : String → Option CacheEntry, (runScan cfg env pkg files s0).2
        = fun p => if p ∈ files then
            cacheStep cfg.cacheEnabled env (getAllDependencyNames pkg) p (s0 p)
          else s0 p := by
      intro s0
      funext p
      show (scanStateAfter cfg env pkg files s0).store p = _
      exact foldl_processFile_store _ _ _ files _ p
    have hs : (runScan cfg env pkg files ((runScan cfg env pkg files store0).2)).2
        = (runScan cfg env pkg files store0).2 := by
      rw [hstore ((runScan cfg env pkg files store0).2), hstore store0]
      funext p
      by_cases hp : p ∈ files
      · simp [hp, cacheStep_idem]
      · simp [hp]
    rw [hs]
  · intro env packageNames c f m hm hc
    simp only [processFileEffect]
    rw [hm]
    simp [hc]

/-- Witness for `scan_stabilizes_and_replay_shape`: the replay shape at a
concrete environment and cache entry with matching mtimes. -/
theorem scan_stabilizes_witness :
    processFileEffect envFixedMtime ["p"] (some entryFixed) "f.ts"
      = { ev := entryFixed.imports.map (fun pkg =>
            (pkg, { file := "f.ts", line := none, type := "static_import",
                    snippet := some "(cached)" })),
          sides := entryFixed.imports.map (fun pkg => (pkg, entryFixed.isClient)),
          write := none } :=
  scan_stabilizes_and_replay_shape.2 envFixedMtime ["p"] entryFixed "f.ts" 5 rfl rfl

end Midna
